import Mathlib

/-!
Verification of the `mdu` concurrent disk-usage core
(src/mdu/worker.c, src/mdu/thread.c, src/mdu/mdu.c).

The traversal is embedded as a labelled transition system.  A filesystem
is a tree `Fs`; for every node the worker executes a fixed sequence of
critical sections (`taskCS`), each an atomic operation `CSOp` on the
shared configuration `Conf` (queue, in-flight tasks, `pending` counter,
`total_size` accumulator, `error` and `done` flags), exactly mirroring
the lock-protected sections of `process_path`, `handle_file`,
`handle_directory` and `update_error_status` in worker.c.  Work done
outside the lock (lstat, readdir) determines the data carried by the
next critical section and is represented by the tree node itself.
-/

namespace Mdu

/-- File kinds distinguished by `lstat`'s `st_mode` for non-directories:
regular file, symbolic link, FIFO, socket, block device, character
device.  `process_path` (worker.c:91-108) never branches on these before
adding the allocation, so they are carried only to show that. -/
inductive FKind where
  | reg | lnk | fifo | sock | blk | chr
deriving DecidableEq, Repr

/-- A filesystem tree as observed by the worker's system calls.
`blocks` is `st_blocks` (512-byte units) reported by `lstat`.
`statFail` is a path whose `lstat` fails (worker.c:96-99);
`dirFail` is a directory whose `lstat` succeeds but whose `opendir`
fails (worker.c:144-159), so its children are unreachable. -/
inductive Fs where
  | file (kind : FKind) (blocks : Nat)
  | dir (blocks : Nat) (children : List Fs)
  | statFail
  | dirFail (blocks : Nat)

mutual

/-- Bytes the traversal accumulates for a node and everything reachable
below it: `st_blocks * 512` for every node whose `lstat` succeeds
(worker.c:119), children only when the directory can be enumerated. -/
def bytesOf : Fs → Nat
  | .file _ b => b * 512
  | .dir b cs => b * 512 + bytesList cs
  | .statFail => 0
  | .dirFail b => b * 512

/-- Sum of `bytesOf` over a list of trees. -/
def bytesList : List Fs → Nat
  | [] => 0
  | t :: ts => bytesOf t + bytesList ts

end

mutual

/-- Sum of the `st_blocks` values of all reachable, accessible nodes. -/
def blocksOf : Fs → Nat
  | .file _ b => b
  | .dir b cs => b + blocksList cs
  | .statFail => 0
  | .dirFail b => b

/-- Sum of `blocksOf` over a list of trees. -/
def blocksList : List Fs → Nat
  | [] => 0
  | t :: ts => blocksOf t + blocksList ts

end

mutual

/-- Whether traversing the tree hits a per-entry error (`lstat` or
`opendir` failure) anywhere reachable. -/
def hasErr : Fs → Bool
  | .file _ _ => false
  | .dir _ cs => errList cs
  | .statFail => true
  | .dirFail _ => true

/-- Disjunction of `hasErr` over a list of trees. -/
def errList : List Fs → Bool
  | [] => false
  | t :: ts => hasErr t || errList ts

end

/-- One critical section (a single mutex acquisition) executed by a
worker on the shared state, from worker.c:
* `addTotal b` — `handle_file`: `total_size += st_blocks * 512`
  (worker.c:118-132);
* `pushInc cs` — success branch of `handle_directory`: enqueue all
  children, `pending += K`, broadcast (worker.c:202-225);
* `markError` — `opendir`-failure branch of `handle_directory`:
  set `error_occurred` (worker.c:145-159);
* `resolveDec e` — `update_error_status`: `pending--`, record the
  call's error flag, set `done` and broadcast when `pending == 0` and
  the queue is empty (worker.c:266-293). -/
inductive CSOp where
  | addTotal (stBlocks : Nat)
  | pushInc (children : List Fs)
  | markError
  | resolveDec (err : Bool)

/-- The sequence of critical sections `process_path` (worker.c:91-108)
executes for one task, determined by the node the system calls reveal:
* `lstat` fails: only `update_error_status(data, 1)`;
* non-directory: `handle_file`, then `update_error_status(data, 0)`;
* readable directory: `handle_file`, then the enqueue section of
  `handle_directory`, then `update_error_status(data, 0)`;
* unreadable directory: `handle_file`, then the error section of
  `handle_directory`, then `update_error_status(data, 0)`. -/
def taskCS : Fs → List CSOp
  | .statFail => [.resolveDec true]
  | .file _ b => [.addTotal b, .resolveDec false]
  | .dir b cs => [.addTotal b, .pushInc cs, .resolveDec false]
  | .dirFail b => [.addTotal b, .markError, .resolveDec false]

/-- An in-flight task: the node being processed and the index of its
next critical section in `taskCS`. -/
abbrev Task := Fs × Nat

/-- The shared `ThreadData` state (thread.h / thread.c) plus the
multiset of tasks currently held by workers:
`queue` is the FIFO list of enqueued paths (`queue_head`/`queue_tail`),
`pending` the signed in-flight counter, `total` is `total_size`,
`error` is `error_occurred`, `done` the termination flag. -/
structure Conf where
  queue : List Fs
  inflight : Multiset Task
  pending : Int
  total : Nat
  error : Bool
  done : Bool

/-- Effect of one critical section on the shared state, translated from
the lock-protected blocks of worker.c cited at `CSOp`. -/
def applyOp (op : CSOp) (c : Conf) : Conf :=
  match op with
  | .addTotal b => { c with total := c.total + b * 512 }
  | .pushInc cs =>
      { c with queue := c.queue ++ cs, pending := c.pending + cs.length }
  | .markError => { c with error := true }
  | .resolveDec e =>
      { c with pending := c.pending - 1,
               error := c.error || e,
               done := c.done ||
                 (decide (c.pending - 1 = 0) && c.queue.isEmpty) }

/-- Whether executing the critical section broadcasts the condition
variable: the enqueue section always does (worker.c:216); the resolve
section does exactly when it detects termination (worker.c:279-286). -/
def opWakes (op : CSOp) (c : Conf) : Bool :=
  match op with
  | .pushInc _ => true
  | .resolveDec _ => decide (c.pending - 1 = 0) && c.queue.isEmpty
  | _ => false

/-- In-flight task set after a task at program counter `i` runs its
next critical section: the task is removed when that was its last
section (`update_error_status`), else its counter advances. -/
def nextInflight (t : Fs) (i : Nat) (rest : Multiset Task) : Multiset Task :=
  if i + 1 = (taskCS t).length then rest else (t, i + 1) ::ₘ rest

/-- Configuration after an in-flight task `(t, i)` (the remainder of the
in-flight multiset being `rest`) executes its next critical section. -/
def execConf (c : Conf) (t : Fs) (i : Nat) (rest : Multiset Task) : Conf :=
  applyOp ((taskCS t).getD i (.resolveDec false))
    { c with inflight := nextInflight t i rest }

/-- One atomic step of the pool, labelled with whether it broadcasts:
a worker pops the queue head (worker.c:66, done holding the lock), or
an in-flight task executes its next critical section.  Any number of
workers is modelled, since any number of tasks may be in flight. -/
inductive Step : Conf → Bool → Conf → Prop
  | pop (c : Conf) (t : Fs) (q : List Fs) (h : c.queue = t :: q) :
      Step c false { c with queue := q, inflight := (t, 0) ::ₘ c.inflight }
  | exec (c : Conf) (t : Fs) (i : Nat) (rest : Multiset Task)
      (hm : c.inflight = (t, i) ::ₘ rest) (hi : i < (taskCS t).length) :
      Step c (opWakes ((taskCS t).getD i (.resolveDec false)) c)
        (execConf c t i rest)

/-- Initial state for one top-level path (mdu.c:63-78): `pending = 1`
and the queue holds the single seed task. -/
def initConf (root : Fs) : Conf :=
  { queue := [root], inflight := 0, pending := 1,
    total := 0, error := false, done := false }

/-- Configurations reachable from the seeded initial state by any
interleaving of worker steps. -/
inductive Reach (root : Fs) : Conf → Prop
  | init : Reach root (initConf root)
  | step {c w c'} : Reach root c → Step c w c' → Reach root c'

/-- Block count printed for one path (mdu.c:99):
`(total_size + 511) / 512`. -/
def total_blocks (total_size : Nat) : Nat :=
  (total_size + 511) / 512

/-- The result lines of `main`'s per-path loop (mdu.c:99-100), given the
final traversal state of each top-level path: one block count per path. -/
def resultLines (cs : List Conf) : List Nat :=
  cs.map (fun c => total_blocks c.total)

/-- `main`'s exit code fold (mdu.c:31, 95-97, 111): starts at
`EXIT_SUCCESS = 0` and becomes `EXIT_FAILURE = 1`, stickily, for every
path whose traversal recorded an error. -/
def finalExit (cs : List Conf) : Nat :=
  cs.foldl (fun code c => if c.error then 1 else code) 0

/-- One iteration of the `getopt` loop for a `-j` occurrence
(mdu.c:33-39): once a usage error occurred the program has exited;
otherwise `num_threads` is replaced by the parsed value, and a value
below 1 is a fatal usage error. -/
def jStep (acc : Except Unit Int) (n : Int) : Except Unit Int :=
  match acc with
  | .error e => .error e
  | .ok _ => if n < 1 then .error () else .ok n

/-- The worker count after option parsing (mdu.c:29-44): `num_threads`
starts at 1 and each `-j` occurrence is checked by `jStep`. -/
def numThreadsOf (jArgs : List Int) : Except Unit Int :=
  jArgs.foldl jStep (.ok 1)

/-- The observable run of `main` (mdu.c:28-112): option parsing first;
a usage error aborts before any traversal, producing no result line;
otherwise the worker count, the result lines and the exit code, given
the final traversal states of the top-level paths. -/
def mduRun (jArgs : List Int) (results : List Conf) :
    Except Unit (Int × List Nat × Nat) :=
  match numThreadsOf jArgs with
  | .error e => .error e
  | .ok nt => .ok (nt, resultLines results, finalExit results)

/-- Sequential composition of a task's critical sections, used to state
the net effect of processing one task on the shared state. -/
def applyAll (ops : List CSOp) (c : Conf) : Conf :=
  ops.foldl (fun s op => applyOp op s) c

/-- Bytes a critical section adds to `total` directly (`addTotal`) or
transfers into the queue (`pushInc`). -/
def opBytes : CSOp → Nat
  | .addTotal b => b * 512
  | .pushInc cs => bytesList cs
  | .markError => 0
  | .resolveDec _ => 0

/-- Bytes an in-flight task at program counter `i` still owes:
contributions of its remaining critical sections. -/
def remBytes (t : Fs) (i : Nat) : Nat :=
  (((taskCS t).drop i).map opBytes).sum

/-- Whether a critical section records an error (`markError`, an erring
`resolveDec`) or transfers erring subtrees into the queue (`pushInc`). -/
def opErr : CSOp → Bool
  | .addTotal _ => false
  | .pushInc cs => errList cs
  | .markError => true
  | .resolveDec e => e

/-- Whether an in-flight task at program counter `i` can still record
or hand on an error. -/
def remErr (t : Fs) (i : Nat) : Bool :=
  (((taskCS t).drop i).map opErr).any id

/-- Master invariant of the traversal of `root`:
1. `pending` counts exactly the queued plus the in-flight tasks;
2. accounting: bytes accumulated, queued and owed by in-flight tasks
   always sum to the tree's total;
3. an error has been recorded, or is still owed by a queued or
   in-flight task, exactly when the tree has an erring node;
4. `done` implies quiescence (`pending = 0`, empty queue);
5. `total` only ever receives multiples of 512. -/
def Inv (root : Fs) (c : Conf) : Prop :=
  (c.pending = (c.queue.length : Int) + (Multiset.card c.inflight : Int)) ∧
  (c.total + bytesList c.queue +
      (c.inflight.map (fun tk => remBytes tk.1 tk.2)).sum = bytesOf root) ∧
  ((c.error = true ∨ (∃ x ∈ c.queue, hasErr x = true) ∨
      (∃ tk ∈ c.inflight, remErr tk.1 tk.2 = true)) ↔ hasErr root = true) ∧
  (c.done = true → c.pending = 0 ∧ c.queue = []) ∧
  (512 ∣ c.total)

/-! ### Helper lemmas -/

theorem bytesList_append (l₁ l₂ : List Fs) :
    bytesList (l₁ ++ l₂) = bytesList l₁ + bytesList l₂ := by
  induction l₁ with
  | nil => simp [bytesList]
  | cons t ts ih => simp [bytesList, ih]; omega

theorem errList_eq_true_iff (l : List Fs) :
    errList l = true ↔ ∃ x ∈ l, hasErr x = true := by
  induction l with
  | nil => simp [errList]
  | cons t ts ih => simp [errList, ih]

theorem remBytes_zero (t : Fs) : remBytes t 0 = bytesOf t := by
  cases t <;> simp [remBytes, taskCS, opBytes, bytesOf]

theorem remErr_zero (t : Fs) : remErr t 0 = hasErr t := by
  cases t <;> simp [remErr, taskCS, opErr, hasErr]

theorem inv_init (root : Fs) : Inv root (initConf root) := by
  refine ⟨by simp [initConf], ?_, ?_, by simp [initConf], by simp [initConf]⟩
  · simp [initConf, bytesList]
  · simp [initConf]

set_option maxHeartbeats 1600000 in
theorem inv_step {root : Fs} {c : Conf} {w : Bool} {c' : Conf}
    (hInv : Inv root c) (hs : Step c w c') : Inv root c' := by
  obtain ⟨h1, h2, h3, h4, h5⟩ := hInv
  cases hs with
  | pop t q h =>
      rw [h] at h1 h2 h3 h4
      refine ⟨?_, ?_, ?_, ?_, h5⟩
      · simp only [Multiset.card_cons] at *
        simp at h1 ⊢
        omega
      · simp only [Multiset.map_cons, Multiset.sum_cons, remBytes_zero]
        simp [bytesList] at h2 ⊢
        omega
      · simp only [Multiset.mem_cons, remErr_zero] at h3 ⊢
        constructor
        · intro hl
          apply h3.mp
          rcases hl with he | ⟨x, hx, hxe⟩ | ⟨tk, htk, htke⟩
          · exact Or.inl he
          · exact Or.inr (Or.inl ⟨x, List.mem_cons_of_mem _ hx, hxe⟩)
          · rcases htk with rfl | htk
            · exact Or.inr (Or.inl ⟨t, List.mem_cons_self _ _, by
                simpa [remErr_zero] using htke⟩)
            · exact Or.inr (Or.inr ⟨tk, htk, htke⟩)
        · intro hr
          rcases h3.mpr hr with he | ⟨x, hx, hxe⟩ | ⟨tk, htk, htke⟩
          · exact Or.inl he
          · rcases List.mem_cons.mp hx with rfl | hx
            · exact Or.inr (Or.inr ⟨(x, 0), Or.inl rfl, by
                rw [remErr_zero]; exact hxe⟩)
            · exact Or.inr (Or.inl ⟨x, hx, hxe⟩)
          · exact Or.inr (Or.inr ⟨tk, Or.inr htk, htke⟩)
      · intro hd
        rcases h4 hd with ⟨_, hq⟩
        exact absurd hq (by simp)
  | exec t i rest hm hi =>
      rw [hm] at h1 h2 h3
      cases t with
      | statFail =>
          simp only [taskCS, List.length_cons, List.length_nil] at hi
          interval_cases i
          have hc : execConf c Fs.statFail 0 rest =
              { queue := c.queue, inflight := rest,
                pending := c.pending - 1, total := c.total,
                error := c.error || true,
                done := c.done ||
                  (decide (c.pending - 1 = 0) && c.queue.isEmpty) } := rfl
          rw [hc]
          refine ⟨?_, ?_, ?_, ?_, h5⟩
          · simp only [Multiset.card_cons] at h1
            simp
            omega
          · simp only [Multiset.map_cons, Multiset.sum_cons] at h2
            simp [remBytes, taskCS, opBytes] at h2 ⊢
            omega
          · constructor
            · intro _
              exact h3.mp (Or.inr (Or.inr ⟨(Fs.statFail, 0),
                Multiset.mem_cons_self _ _, by decide⟩))
            · intro _
              simp
          · intro hd
            simp only [Multiset.card_cons] at h1
            simp only [Bool.or_eq_true, Bool.and_eq_true, decide_eq_true_eq,
              List.isEmpty_iff] at hd
            rcases hd with hdt | ⟨hp, hq⟩
            · rcases h4 hdt with ⟨hp, _⟩
              omega
            · exact ⟨hp, hq⟩
      | file k b =>
          simp only [taskCS, List.length_cons, List.length_nil] at hi
          interval_cases i
          · have hc : execConf c (Fs.file k b) 0 rest =
                { queue := c.queue, inflight := (Fs.file k b, 1) ::ₘ rest,
                  pending := c.pending, total := c.total + b * 512,
                  error := c.error, done := c.done } := rfl
            rw [hc]
            refine ⟨?_, ?_, ?_, ?_, ?_⟩
            · simp only [Multiset.card_cons] at h1 ⊢
              simpa using h1
            · simp only [Multiset.map_cons, Multiset.sum_cons] at h2 ⊢
              simp [remBytes, taskCS, opBytes] at h2 ⊢
              omega
            · rw [← h3]
              simp [Multiset.mem_cons, exists_eq_or_imp, remErr, taskCS, opErr]
            · intro hd
              exact h4 hd
            · exact dvd_add h5 (dvd_mul_left 512 b)
          · have hc : execConf c (Fs.file k b) 1 rest =
                { queue := c.queue, inflight := rest,
                  pending := c.pending - 1, total := c.total,
                  error := c.error || false,
                  done := c.done ||
                    (decide (c.pending - 1 = 0) && c.queue.isEmpty) } := rfl
            rw [hc]
            refine ⟨?_, ?_, ?_, ?_, h5⟩
            · simp only [Multiset.card_cons] at h1
              simp
              omega
            · simp only [Multiset.map_cons, Multiset.sum_cons] at h2
              simp [remBytes, taskCS, opBytes] at h2 ⊢
              omega
            · rw [← h3]
              simp [Multiset.mem_cons, exists_eq_or_imp, remErr, taskCS, opErr]
            · intro hd
              simp only [Multiset.card_cons] at h1
              simp only [Bool.or_eq_true, Bool.and_eq_true, decide_eq_true_eq,
                List.isEmpty_iff] at hd
              rcases hd with hdt | ⟨hp, hq⟩
              · rcases h4 hdt with ⟨hp, _⟩
                omega
              · exact ⟨hp, hq⟩
      | dir b cs =>
          simp only [taskCS, List.length_cons, List.length_nil] at hi
          interval_cases i
          · have hc : execConf c (Fs.dir b cs) 0 rest =
                { queue := c.queue, inflight := (Fs.dir b cs, 1) ::ₘ rest,
                  pending := c.pending, total := c.total + b * 512,
                  error := c.error, done := c.done } := rfl
            rw [hc]
            refine ⟨?_, ?_, ?_, ?_, ?_⟩
            · simp only [Multiset.card_cons] at h1 ⊢
              simpa using h1
            · simp only [Multiset.map_cons, Multiset.sum_cons] at h2 ⊢
              simp [remBytes, taskCS, opBytes] at h2 ⊢
              omega
            · rw [← h3]
              simp [Multiset.mem_cons, exists_eq_or_imp, remErr, taskCS, opErr]
            · intro hd
              exact h4 hd
            · exact dvd_add h5 (dvd_mul_left 512 b)
          · have hc : execConf c (Fs.dir b cs) 1 rest =
                { queue := c.queue ++ cs,
                  inflight := (Fs.dir b cs, 2) ::ₘ rest,
                  pending := c.pending + cs.length, total := c.total,
                  error := c.error, done := c.done } := rfl
            rw [hc]
            refine ⟨?_, ?_, ?_, ?_, h5⟩
            · simp only [Multiset.card_cons] at h1 ⊢
              simp [List.length_append]
              omega
            · simp only [Multiset.map_cons, Multiset.sum_cons] at h2 ⊢
              simp [remBytes, taskCS, opBytes, bytesList_append] at h2 ⊢
              omega
            · constructor
              · intro hl
                apply h3.mp
                rcases hl with he | ⟨x, hx, hxe⟩ | ⟨tk, htk, htke⟩
                · exact Or.inl he
                · rcases List.mem_append.mp hx with hx | hx
                  · exact Or.inr (Or.inl ⟨x, hx, hxe⟩)
                  · exact Or.inr (Or.inr ⟨(Fs.dir b cs, 1),
                      Multiset.mem_cons_self _ _, by
                        simp [remErr, taskCS, opErr, errList_eq_true_iff]
                        exact ⟨x, hx, hxe⟩⟩)
                · rcases Multiset.mem_cons.mp htk with rfl | htk
                  · simp [remErr, taskCS, opErr] at htke
                  · exact Or.inr (Or.inr ⟨tk,
                      Multiset.mem_cons_of_mem htk, htke⟩)
              · intro hr
                rcases h3.mpr hr with he | ⟨x, hx, hxe⟩ | ⟨tk, htk, htke⟩
                · exact Or.inl he
                · exact Or.inr (Or.inl ⟨x,
                    List.mem_append.mpr (Or.inl hx), hxe⟩)
                · rcases Multiset.mem_cons.mp htk with rfl | htk
                  · have hce : errList cs = true := by
                      simpa [remErr, taskCS, opErr] using htke
                    rcases (errList_eq_true_iff cs).mp hce with ⟨x, hx, hxe⟩
                    exact Or.inr (Or.inl ⟨x,
                      List.mem_append.mpr (Or.inr hx), hxe⟩)
                  · exact Or.inr (Or.inr ⟨tk,
                      Multiset.mem_cons_of_mem htk, htke⟩)
            · intro hd
              rcases h4 hd with ⟨hp, _⟩
              simp only [Multiset.card_cons] at h1
              omega
          · have hc : execConf c (Fs.dir b cs) 2 rest =
                { queue := c.queue, inflight := rest,
                  pending := c.pending - 1, total := c.total,
                  error := c.error || false,
                  done := c.done ||
                    (decide (c.pending - 1 = 0) && c.queue.isEmpty) } := rfl
            rw [hc]
            refine ⟨?_, ?_, ?_, ?_, h5⟩
            · simp only [Multiset.card_cons] at h1
              simp
              omega
            · simp only [Multiset.map_cons, Multiset.sum_cons] at h2
              simp [remBytes, taskCS, opBytes] at h2 ⊢
              omega
            · rw [← h3]
              simp [Multiset.mem_cons, exists_eq_or_imp, remErr, taskCS, opErr]
            · intro hd
              simp only [Multiset.card_cons] at h1
              simp only [Bool.or_eq_true, Bool.and_eq_true, decide_eq_true_eq,
                List.isEmpty_iff] at hd
              rcases hd with hdt | ⟨hp, hq⟩
              · rcases h4 hdt with ⟨hp, _⟩
                omega
              · exact ⟨hp, hq⟩
      | dirFail b =>
          simp only [taskCS, List.length_cons, List.length_nil] at hi
          interval_cases i
          · have hc : execConf c (Fs.dirFail b) 0 rest =
                { queue := c.queue, inflight := (Fs.dirFail b, 1) ::ₘ rest,
                  pending := c.pending, total := c.total + b * 512,
                  error := c.error, done := c.done } := rfl
            rw [hc]
            refine ⟨?_, ?_, ?_, ?_, ?_⟩
            · simp only [Multiset.card_cons] at h1 ⊢
              simpa using h1
            · simp only [Multiset.map_cons, Multiset.sum_cons] at h2 ⊢
              simp [remBytes, taskCS, opBytes] at h2 ⊢
              omega
            · rw [← h3]
              simp [Multiset.mem_cons, exists_eq_or_imp, remErr, taskCS, opErr]
            · intro hd
              exact h4 hd
            · exact dvd_add h5 (dvd_mul_left 512 b)
          · have hc : execConf c (Fs.dirFail b) 1 rest =
                { queue := c.queue, inflight := (Fs.dirFail b, 2) ::ₘ rest,
                  pending := c.pending, total := c.total,
                  error := true, done := c.done } := rfl
            rw [hc]
            refine ⟨?_, ?_, ?_, ?_, h5⟩
            · simp only [Multiset.card_cons] at h1 ⊢
              simpa using h1
            · simp only [Multiset.map_cons, Multiset.sum_cons] at h2 ⊢
              simp [remBytes, taskCS, opBytes] at h2 ⊢
              omega
            · constructor
              · intro _
                exact h3.mp (Or.inr (Or.inr ⟨(Fs.dirFail b, 1),
                  Multiset.mem_cons_self _ _, by
                    simp [remErr, taskCS, opErr]⟩))
              · intro _
                simp
            · intro hd
              exact h4 hd
          · have hc : execConf c (Fs.dirFail b) 2 rest =
                { queue := c.queue, inflight := rest,
                  pending := c.pending - 1, total := c.total,
                  error := c.error || false,
                  done := c.done ||
                    (decide (c.pending - 1 = 0) && c.queue.isEmpty) } := rfl
            rw [hc]
            refine ⟨?_, ?_, ?_, ?_, h5⟩
            · simp only [Multiset.card_cons] at h1
              simp
              omega
            · simp only [Multiset.map_cons, Multiset.sum_cons] at h2
              simp [remBytes, taskCS, opBytes] at h2 ⊢
              omega
            · rw [← h3]
              simp [Multiset.mem_cons, exists_eq_or_imp, remErr, taskCS, opErr]
            · intro hd
              simp only [Multiset.card_cons] at h1
              simp only [Bool.or_eq_true, Bool.and_eq_true, decide_eq_true_eq,
                List.isEmpty_iff] at hd
              rcases hd with hdt | ⟨hp, hq⟩
              · rcases h4 hdt with ⟨hp, _⟩
                omega
              · exact ⟨hp, hq⟩

theorem inv_reach {root : Fs} {c : Conf} (h : Reach root c) : Inv root c := by
  induction h with
  | init => exact inv_init root
  | step _ hs ih => exact inv_step ih hs

/-- At any reachable `done` state the traversal is quiescent and the
accumulated total and error flag equal the tree's denotation. -/
theorem terminal_outcome {root : Fs} {c : Conf} (h : Reach root c)
    (hd : c.done = true) :
    c.total = bytesOf root ∧ c.error = hasErr root ∧
    c.pending = 0 ∧ c.queue = [] ∧ c.inflight = 0 := by
  obtain ⟨h1, h2, h3, h4, _⟩ := inv_reach h
  obtain ⟨hp, hq⟩ := h4 hd
  have hcard : Multiset.card c.inflight = 0 := by
    rw [hp, hq] at h1
    simpa using h1.symm
  have hinf : c.inflight = 0 := Multiset.card_eq_zero.mp hcard
  rw [hq, hinf] at h2 h3
  refine ⟨by simpa [bytesList] using h2, ?_, hp, hq, hinf⟩
  simp at h3
  exact h3

mutual

theorem bytesOf_eq_mul : ∀ t : Fs, bytesOf t = 512 * blocksOf t
  | .file _ b => by simp [bytesOf, blocksOf]; ring
  | .dir b cs => by
      simp [bytesOf, blocksOf, bytesList_eq_mul cs]; ring
  | .statFail => rfl
  | .dirFail b => by simp [bytesOf, blocksOf]; ring

theorem bytesList_eq_mul : ∀ l : List Fs, bytesList l = 512 * blocksList l
  | [] => rfl
  | t :: ts => by
      simp [bytesList, blocksList, bytesOf_eq_mul t, bytesList_eq_mul ts]
      ring

end

/-- Once `pending` hits 0, `done` has been set: the last decrement found
the queue empty (by the counting invariant) and raised the flag. -/
theorem pending_zero_done {root : Fs} {c : Conf} (h : Reach root c)
    (hp : c.pending = 0) : c.done = true := by
  cases h with
  | init => simp [initConf] at hp
  | step hr hs =>
      rename_i c₀ w
      obtain ⟨h1, _, _, _, _⟩ := inv_reach hr
      cases hs with
      | pop t q hq =>
          rw [hq] at h1
          simp at hp
          simp [Multiset.card_cons] at h1
          omega
      | exec t i rest hm hi =>
          rw [hm] at h1
          simp only [Multiset.card_cons] at h1
          unfold execConf at hp ⊢
          revert hp
          cases hop : (taskCS t).getD i (.resolveDec false) with
          | addTotal b =>
              intro hp
              exfalso
              simp [applyOp] at hp
              omega
          | pushInc cs =>
              intro hp
              exfalso
              simp [applyOp] at hp
              omega
          | markError =>
              intro hp
              exfalso
              simp [applyOp] at hp
              omega
          | resolveDec e =>
              intro hp
              simp [applyOp] at hp ⊢
              have hq : c₀.queue = [] := by
                have : c₀.queue.length = 0 := by omega
                exact List.length_eq_zero.mp this
              simp [hp, hq]

/-- `main`'s sticky exit-code fold is 0 exactly when no path recorded
an error (and the fold started at 0). -/
theorem finalExit_eq_zero_iff (cs : List Conf) :
    finalExit cs = 0 ↔ ∀ c ∈ cs, c.error = false := by
  have aux : ∀ (l : List Conf) (code : Nat),
      l.foldl (fun code c => if c.error then 1 else code) code = 0 ↔
        (code = 0 ∧ ∀ c ∈ l, c.error = false) := by
    intro l
    induction l with
    | nil => intro code; simp
    | cons c l ih =>
        intro code
        rcases hc : c.error with _ | _
        · simp [List.foldl, hc, ih code, hc]
        · simp [List.foldl, hc, ih 1]
  rw [finalExit, aux cs 0]
  simp

theorem foldl_jStep_error (js : List Int) :
    js.foldl jStep (.error ()) = .error () := by
  induction js with
  | nil => rfl
  | cons m ms ih => simpa [List.foldl, jStep] using ih

theorem foldl_jStep_bad (js : List Int) (n : Int) (acc : Except Unit Int)
    (hmem : n ∈ js) (hlt : n < 1) :
    js.foldl jStep acc = .error () := by
  induction js generalizing acc with
  | nil => cases hmem
  | cons m ms ih =>
      rcases List.mem_cons.mp hmem with rfl | hmem
      · cases acc with
        | error e =>
            cases e
            simpa [List.foldl, jStep] using foldl_jStep_error ms
        | ok v =>
            simpa [List.foldl, jStep, hlt] using foldl_jStep_error ms
      · exact ih (jStep acc m) hmem

/-! ### A concrete run: one regular file of one block -/

/-- Witness tree: a single regular file with `st_blocks = 1`. -/
def tA : Fs := .file .reg 1

/-- After the seed task is popped. -/
def cA1 : Conf :=
  { queue := [], inflight := (tA, 0) ::ₘ 0, pending := 1,
    total := 0, error := false, done := false }

/-- After `handle_file` added `1 * 512` bytes. -/
def cA2 : Conf :=
  { queue := [], inflight := (tA, 1) ::ₘ 0, pending := 1,
    total := 512, error := false, done := false }

/-- After `update_error_status` resolved the task and set `done`. -/
def cA3 : Conf :=
  { queue := [], inflight := 0, pending := 0,
    total := 512, error := false, done := true }

theorem stepA1 : Step (initConf tA) false cA1 :=
  Step.pop (initConf tA) tA [] rfl

theorem stepA2 : Step cA1 false cA2 :=
  Step.exec cA1 tA 0 0 rfl (by decide)

theorem stepA3 : Step cA2 true cA3 :=
  Step.exec cA2 tA 1 0 rfl (by decide)

theorem reachA2 : Reach tA cA2 :=
  .step (.step .init stepA1) stepA2

theorem reachA3 : Reach tA cA3 :=
  .step reachA2 stepA3

/-! ### Claims -/

/-- C1: for a directory with K children, the worker enqueues all K child
paths and increments `pending` by K in one single critical section
(`pushInc`, worker.c:202-225), placed before the task's decrementing
section (`resolveDec`, worker.c:266-293) in its sequence of critical
sections; consequently `pending` can never be observed at 0 while any
task — in particular a child of an already-measured directory — is
still queued or in flight. -/
theorem pending_zero_means_quiescent (root : Fs) (c : Conf)
    (h : Reach root c) (hp : c.pending = 0) :
    c.queue = [] ∧ c.inflight = 0 ∧
    ∀ b cs, taskCS (Fs.dir b cs) =
      [CSOp.addTotal b, CSOp.pushInc cs, CSOp.resolveDec false] := by
  obtain ⟨h1, _, _, _, _⟩ := inv_reach h
  rw [hp] at h1
  have hq : c.queue.length = 0 ∧ Multiset.card c.inflight = 0 := by omega
  exact ⟨List.length_eq_zero.mp hq.1, Multiset.card_eq_zero.mp hq.2,
    fun _ _ => rfl⟩

theorem pending_zero_means_quiescent_witness :
    cA3.pending = 0 ∧ cA3.queue = [] ∧ cA3.inflight = 0 :=
  ⟨rfl, (pending_zero_means_quiescent tA cA3 reachA3 rfl).1,
    (pending_zero_means_quiescent tA cA3 reachA3 rfl).2.1⟩

/-- C3: for a fixed tree, every interleaving of any number of workers
that reaches the `done` state has accumulated exactly the tree's byte
total — whose printed block form is the sum of the `st_blocks` of all
reachable nodes — so any two terminating runs (hence any two worker
counts) report the same total. -/
theorem traversal_total_deterministic (root : Fs) (c c' : Conf)
    (h : Reach root c) (h' : Reach root c') (hd : c.done = true)
    (hd' : c'.done = true) :
    c.total = bytesOf root ∧ total_blocks c.total = blocksOf root ∧
    c.total = c'.total := by
  have t1 := (terminal_outcome h hd).1
  have t2 := (terminal_outcome h' hd').1
  refine ⟨t1, ?_, t1.trans t2.symm⟩
  rw [t1, bytesOf_eq_mul]
  unfold total_blocks
  omega

theorem traversal_total_deterministic_witness :
    cA3.done = true ∧ cA3.total = bytesOf tA ∧
    total_blocks cA3.total = blocksOf tA :=
  ⟨rfl, (traversal_total_deterministic tA cA3 cA3 reachA3 reachA3 rfl rfl).1,
    (traversal_total_deterministic tA cA3 cA3 reachA3 reachA3 rfl rfl).2.1⟩

/-- C5: the reported block count for a path is
`(total_size + 511) / 512` (mdu.c:99), which is exactly the ceiling of
`total_size / 512`. -/
theorem total_blocks_is_ceil (n : Nat) : total_blocks n = n ⌈/⌉ 512 := by
  rw [Nat.ceilDiv_eq_add_pred_div]
  unfold total_blocks
  omega

/-- C4: along any step from a reachable state, `done` makes only a
monotonic false-to-true transition; after the step `done` is true
exactly when `pending` is 0 and the queue is empty; and the step that
raises `done` broadcasts the condition variable, waking all blocked
workers (worker.c:279-286). -/
theorem done_monotone_exact (root : Fs) (c : Conf) (w : Bool) (c' : Conf)
    (h : Reach root c) (hs : Step c w c') :
    (c.done = true → c'.done = true) ∧
    (c'.done = true ↔ (c'.pending = 0 ∧ c'.queue = [])) ∧
    (c.done = false → c'.done = true → w = true) := by
  obtain ⟨h1, _, _, h4, _⟩ := inv_reach h
  have h4' := (inv_step (inv_reach h) hs).2.2.2.1
  have hback : c'.pending = 0 → c'.done = true :=
    fun hp => pending_zero_done (Reach.step h hs) hp
  refine ⟨?_, ⟨fun hd => h4' hd, fun hpq => hback hpq.1⟩, ?_⟩
  · intro hd
    obtain ⟨hp, hq⟩ := h4 hd
    exfalso
    cases hs with
    | pop t q hqq =>
        rw [hq] at hqq
        cases hqq
    | exec t i rest hm hi =>
        rw [hq] at h1
        rw [hp] at h1
        have hc0 : Multiset.card c.inflight = 0 := by
          simp at h1
          omega
        rw [Multiset.card_eq_zero.mp hc0] at hm
        exact Multiset.cons_ne_zero hm.symm
  · intro hnd hd
    cases hs with
    | pop t q hqq =>
        simp [hnd] at hd
    | exec t i rest hm hi =>
        unfold execConf at hd
        revert hd
        cases hop : (taskCS t).getD i (.resolveDec false) with
        | addTotal b =>
            intro hd
            simp [applyOp, hnd] at hd
        | pushInc cs =>
            intro _
            rfl
        | markError =>
            intro hd
            simp [applyOp, hnd] at hd
        | resolveDec e =>
            intro hd
            simp [applyOp, hnd] at hd
            simp [opWakes, hd]

theorem done_monotone_exact_witness :
    cA2.done = false ∧ cA3.done = true ∧
    (cA3.pending = 0 ∧ cA3.queue = []) :=
  ⟨rfl, (done_monotone_exact tA cA2 true cA3 reachA2 stepA3).2.1.mpr
      ⟨rfl, rfl⟩,
    (done_monotone_exact tA cA2 true cA3 reachA2 stepA3).2.1.mp rfl⟩

/-- Concrete directory with one child, used to examine the claim that a
single lock acquisition performs push, increment and decrement. -/
def c2tree : Fs := .dir 0 [.file .reg 0]

/-- A probe state for evaluating critical sections in isolation. -/
def c2probe : Conf :=
  { queue := [], inflight := 0, pending := 5,
    total := 0, error := false, done := false }

/-- C2 counterexample: for the concrete directory `c2tree` with K = 1
child, no single critical section of its task both appends the child to
the queue and leaves `pending` at its old value plus K minus 1 (the
claimed combined `+K` and `-1` inside one lock acquisition) while
broadcasting: the enqueue section leaves `pending` incremented by K
only, and the decrement happens in the separate `update_error_status`
section. -/
theorem no_single_section_does_all :
    ¬ ∃ op ∈ taskCS c2tree,
        ((applyOp op c2probe).queue =
            c2probe.queue ++ [Fs.file FKind.reg 0] ∧
         (applyOp op c2probe).pending = c2probe.pending ∧
         opWakes op c2probe = true) := by
  rintro ⟨op, hmem, hque, hpend, hw⟩
  simp [taskCS, c2tree] at hmem
  rcases hmem with rfl | rfl | rfl
  · simp [applyOp, c2probe] at hque
  · simp [applyOp, c2probe] at hpend
  · simp [applyOp, c2probe] at hque

/-- C2 amended: on successful enumeration with K children the worker,
in one critical section, pushes all K child tasks, increments `pending`
by K and broadcast-wakes waiters (worker.c:202-225); the decrement of
`pending` by 1 for the parent itself happens afterwards in a separate
critical section, `update_error_status` (worker.c:266-293), which
leaves the queue untouched. -/
theorem push_then_separate_decrement (b : Nat) (cs : List Fs) (c : Conf) :
    taskCS (Fs.dir b cs) =
      [CSOp.addTotal b, CSOp.pushInc cs, CSOp.resolveDec false] ∧
    (applyOp (CSOp.pushInc cs) c).queue = c.queue ++ cs ∧
    (applyOp (CSOp.pushInc cs) c).pending = c.pending + cs.length ∧
    opWakes (CSOp.pushInc cs) c = true ∧
    (applyOp (CSOp.resolveDec false) c).pending = c.pending - 1 ∧
    (applyOp (CSOp.resolveDec false) c).queue = c.queue :=
  ⟨rfl, rfl, rfl, rfl, rfl, rfl⟩

/-- C6: with every top-level path traversed to completion, the exit
code is 0 exactly when no path's tree has a per-entry error, and one
result line is produced for every path attempted. -/
theorem exit_zero_iff_no_errors (ts : List Fs) (cs : List Conf)
    (h : List.Forall₂ (fun t c => Reach t c ∧ c.done = true) ts cs) :
    (finalExit cs = 0 ↔ ∀ t ∈ ts, hasErr t = false) ∧
    (resultLines cs).length = ts.length := by
  constructor
  · rw [finalExit_eq_zero_iff]
    induction h with
    | nil => simp
    | cons hrel hrest ih =>
        rename_i t c ts' cs'
        obtain ⟨hr, hd⟩ := hrel
        have herr : c.error = hasErr t := (terminal_outcome hr hd).2.1
        simp [List.forall_mem_cons, herr, ih]
  · simp [resultLines, List.Forall₂.length_eq h]

theorem exit_zero_iff_no_errors_witness :
    (finalExit [cA3] = 0 ↔ ∀ t ∈ [tA], hasErr t = false) ∧
    (resultLines [cA3]).length = [tA].length :=
  exit_zero_iff_no_errors [tA] [cA3]
    (List.Forall₂.cons ⟨reachA3, rfl⟩ List.Forall₂.nil)

/-- C7: with no `-j` given the worker count is 1, and any `-j` value
below 1 makes the run a usage error that aborts before any traversal:
the result is an error carrying no result lines. -/
theorem default_and_bad_thread_count (js : List Int) (n : Int)
    (rs : List Conf) (hmem : n ∈ js) (hlt : n < 1) :
    mduRun js rs = Except.error () ∧
    mduRun [] rs = Except.ok (1, resultLines rs, finalExit rs) := by
  constructor
  · unfold mduRun numThreadsOf
    rw [foldl_jStep_bad js n (.ok 1) hmem hlt]
  · rfl

theorem default_and_bad_thread_count_witness :
    mduRun [0] [] = Except.error () ∧
    mduRun [] [] = Except.ok (1, resultLines [], finalExit []) :=
  default_and_bad_thread_count [0] 0 [] (by simp) (by norm_num)

/-- C8: every contribution to `total_size` is `st_blocks * 512`, so the
accumulator is always a multiple of 512, the `(total + 511) / 512`
conversion never rounds up, and at completion the printed count is
exactly the sum of the `st_blocks` of all measured nodes. -/
theorem total_always_block_multiple (root : Fs) (c : Conf)
    (h : Reach root c) :
    512 ∣ c.total ∧ total_blocks c.total = c.total / 512 ∧
    (c.done = true → total_blocks c.total = blocksOf root) := by
  have h5 := (inv_reach h).2.2.2.2
  refine ⟨h5, ?_, ?_⟩
  · obtain ⟨k, hk⟩ := h5
    rw [hk]
    unfold total_blocks
    omega
  · intro hd
    rw [(terminal_outcome h hd).1, bytesOf_eq_mul]
    unfold total_blocks
    omega

theorem total_always_block_multiple_witness :
    512 ∣ cA3.total ∧ total_blocks cA3.total = cA3.total / 512 ∧
    total_blocks cA3.total = blocksOf tA :=
  ⟨(total_always_block_multiple tA cA3 reachA3).1,
   (total_always_block_multiple tA cA3 reachA3).2.1,
   (total_always_block_multiple tA cA3 reachA3).2.2 rfl⟩

/-- C9: for every node whose `lstat` succeeds, the worker's critical
sections are the same for every non-directory kind — symbolic link,
FIFO, socket, device — and the `handle_file` section adds exactly
`st_blocks * 512`, so such nodes contribute their own allocation
exactly like regular files do. -/
theorem contribution_kind_independent (k k' : FKind) (b : Nat)
    (c : Conf) :
    taskCS (Fs.file k b) = [CSOp.addTotal b, CSOp.resolveDec false] ∧
    taskCS (Fs.file k b) = taskCS (Fs.file k' b) ∧
    (applyOp (CSOp.addTotal b) c).total = c.total + b * 512 ∧
    bytesOf (Fs.file k b) = b * 512 :=
  ⟨rfl, rfl, rfl, rfl⟩

/-- C10: when `opendir` fails, the directory's own blocks were already
added by the preceding `handle_file` section and stay counted; the net
effect of the task is: queue unchanged (no children enqueued), total
increased by `st_blocks * 512`, error flag set, `pending` decremented
by exactly 1. -/
theorem opendir_failure_net_effect (b : Nat) (c : Conf) :
    taskCS (Fs.dirFail b) =
      [CSOp.addTotal b, CSOp.markError, CSOp.resolveDec false] ∧
    (applyAll (taskCS (Fs.dirFail b)) c).queue = c.queue ∧
    (applyAll (taskCS (Fs.dirFail b)) c).total = c.total + b * 512 ∧
    (applyAll (taskCS (Fs.dirFail b)) c).error = true ∧
    (applyAll (taskCS (Fs.dirFail b)) c).pending = c.pending - 1 := by
  refine ⟨rfl, ?_, ?_, ?_, ?_⟩ <;> simp [applyAll, taskCS, applyOp]

end Mdu
